import Mathlib

set_option linter.unusedSectionVars false

/-!
Shallow embedding of `ruleset.py` (module RuleSet): the `RuleSet` class with its
dependency/conflict registration, the recursive `areDependent` reachability
check, the two-part `isCoherent` predicate, and the `Options` selection layer
with its toggle cascade.

Python sets are modelled as duplicate-free lists in insertion order; the
recursive `areDependent` method, which need not terminate, is modelled with an
explicit fuel parameter; `assert` statements are modelled as an error outcome.
-/

namespace RulesAndOptions

variable {α : Type} [DecidableEq α]

/-- Outcome of running a piece of the module: a normal return value, an
`AssertionError`, or failure to finish within the allotted recursion fuel
(the Python code recursing beyond that depth). -/
inductive Res (β : Type) where
  | ok (val : β)
  | asrt
  | fuel
deriving DecidableEq, Repr

/-- State of a `RuleSet` object: the private sets `__deps`, `__confs` and
`__symbols`, modelled as lists in insertion order. -/
structure RuleSet (α : Type) where
  deps : List (α × α)
  confs : List (α × α)
  symbols : List α
deriving DecidableEq, Repr

/-- Python `set.add`: append an element unless already present. -/
def insertS {β : Type} [DecidableEq β] (a : β) (l : List β) : List β :=
  if a ∈ l then l else l ++ [a]

/-- Python `set.discard`. -/
def removeS (a : α) (l : List α) : List α := l.filter (fun x => x ≠ a)

/-- Python `set.union`. -/
def unionS (l1 l2 : List α) : List α := l2.foldl (fun acc x => insertS x acc) l1

/-- Python `set.difference`. -/
def diffS (l1 l2 : List α) : List α := l1.filter (fun x => x ∉ l2)

/-- `RuleSet.__init__`: all three data structures start empty. -/
def RuleSet.empty : RuleSet α := ⟨[], [], []⟩

/-- `RuleSet.addDep`: records the tuple `(dest, source)` when `dest != source`
(silently skipping the pair otherwise, as the source comments explain), and in
every case adds both symbols to the symbol set. -/
def addDep (rs : RuleSet α) (dest source : α) : RuleSet α :=
  let rs1 := if dest ≠ source then { rs with deps := insertS (dest, source) rs.deps } else rs
  { rs1 with symbols := insertS source (insertS dest rs1.symbols) }

/-- `RuleSet.addConflict`: asserts `sym1 != sym2`, stores `(sym1, sym2)` unless
either orientation is already present, and adds both symbols to the symbol set. -/
def addConflict (rs : RuleSet α) (sym1 sym2 : α) : Res (RuleSet α) :=
  if sym1 = sym2 then .asrt
  else
    let rs1 := if (sym1, sym2) ∉ rs.confs ∧ (sym2, sym1) ∉ rs.confs then
        { rs with confs := insertS (sym1, sym2) rs.confs } else rs
    .ok { rs1 with symbols := insertS sym2 (insertS sym1 rs1.symbols) }

/-- The list `check_dst` built inside `areDependent`: second components of the
dependencies whose first component is `dest`. -/
def checkDst (deps : List (α × α)) (dest : α) : List α :=
  (deps.filter (fun p => p.1 = dest)).map Prod.snd

/-- The list `check_src` built inside `areDependent`: first components of the
dependencies whose second component is `source`. -/
def checkSrc (deps : List (α × α)) (source : α) : List α :=
  (deps.filter (fun p => p.2 = source)).map Prod.fst

/-- The nested-loop cross join `crs_join` of `check_dst` and `check_src`. -/
def crossJoin (l1 l2 : List α) : List (α × α) :=
  l1.foldr (fun x acc => l2.map (fun y => (x, y)) ++ acc) []

/-- An eager `map` of boolean computations followed by `reduce(or)`: the first
exceptional element (in list order) determines the outcome, otherwise the
disjunction of the values is returned. -/
def resOr : List (Res Bool) → Res Bool
  | [] => .ok false
  | .ok b :: rest =>
    match resOr rest with
    | .ok b2 => .ok (b || b2)
    | .asrt => .asrt
    | .fuel => .fuel
  | .asrt :: _ => .asrt
  | .fuel :: _ => .fuel

/-- An eager `map` of boolean computations followed by `reduce(and)`: the first
exceptional element (in list order) determines the outcome, otherwise the
conjunction of the values is returned. -/
def resAnd : List (Res Bool) → Res Bool
  | [] => .ok true
  | .ok b :: rest =>
    match resAnd rest with
    | .ok b2 => .ok (b && b2)
    | .asrt => .asrt
    | .fuel => .fuel
  | .asrt :: _ => .asrt
  | .fuel :: _ => .fuel

/-- `RuleSet.areDependent(dest, source)`, with explicit recursion fuel: asserts
both symbols are in the symbol list; returns true on a direct dependency or on
`source == dest`; otherwise looks for a symbol shared by `check_dst` and
`check_src`, and failing that recurses on every pair of the cross join,
or-reducing the eagerly computed results. -/
def areDependentFuel (rs : RuleSet α) : Nat → α → α → Res Bool
  | 0, _, _ => .fuel
  | f + 1, dest, source =>
    if dest ∉ rs.symbols ∨ source ∉ rs.symbols then .asrt
    else if (dest, source) ∈ rs.deps ∨ source = dest then .ok true
    else if ∃ y ∈ checkDst rs.deps dest, y ∈ checkSrc rs.deps source then .ok true
    else
      resOr ((crossJoin (checkDst rs.deps dest) (checkSrc rs.deps source)).map
        (fun p => areDependentFuel rs f p.1 p.2))

/-- The loop body of `RuleSet._getAllConflicts`: both orientations of every
conflict tuple touching `sym` contribute the opposite symbol. -/
def conflictPartners (rs : RuleSet α) (s : α) : List α :=
  rs.confs.foldl (fun acc c =>
    let acc1 := if c.1 = s then insertS c.2 acc else acc
    if c.2 = s then insertS c.1 acc1 else acc1) []

/-- `RuleSet._getAllConflicts(sym)`: asserts `sym` is a known symbol, then
collects the direct conflict partners of `sym`. -/
def getAllConflicts (rs : RuleSet α) (s : α) : Res (List α) :=
  if s ∈ rs.symbols then .ok (conflictPartners rs s) else .asrt

/-- The loop of `RuleSet._getAllDependencies`: keep each remaining symbol `x`
with `areDependent(sym, x)` true, propagating the first exceptional outcome. -/
def collectDependencies (rs : RuleSet α) (f : Nat) (s : α) : List α → Res (List α)
  | [] => .ok []
  | x :: xs =>
    match areDependentFuel rs f s x with
    | .ok true =>
      match collectDependencies rs f s xs with
      | .ok l => .ok (x :: l)
      | .asrt => .asrt
      | .fuel => .fuel
    | .ok false => collectDependencies rs f s xs
    | .asrt => .asrt
    | .fuel => .fuel

/-- `RuleSet._getAllDependencies(sym)`: asserts `sym` is a known symbol, then
scans `symbols - {sym}` for the symbols `sym` transitively depends on. -/
def getAllDependenciesFuel (f : Nat) (rs : RuleSet α) (s : α) : Res (List α) :=
  if s ∈ rs.symbols then collectDependencies rs f s (removeS s rs.symbols) else .asrt

/-- The loop of `RuleSet._getAllDependants`: keep each remaining symbol `x`
with `areDependent(x, sym)` true, propagating the first exceptional outcome. -/
def collectDependants (rs : RuleSet α) (f : Nat) (s : α) : List α → Res (List α)
  | [] => .ok []
  | x :: xs =>
    match areDependentFuel rs f x s with
    | .ok true =>
      match collectDependants rs f s xs with
      | .ok l => .ok (x :: l)
      | .asrt => .asrt
      | .fuel => .fuel
    | .ok false => collectDependants rs f s xs
    | .asrt => .asrt
    | .fuel => .fuel

/-- `RuleSet._getAllDependants(sym)`: asserts `sym` is a known symbol, then
scans `symbols - {sym}` for the symbols transitively depending on `sym`. -/
def getAllDependantsFuel (f : Nat) (rs : RuleSet α) (s : α) : Res (List α) :=
  if s ∈ rs.symbols then collectDependants rs f s (removeS s rs.symbols) else .asrt

/-- One element of `stat1` in `isCoherent`: the Python expression
`areNotDependent(x[0], x[1]) and areNotDependent(x[1], x[0])`, where the `and`
short-circuits, so the second call only runs when the first returned false. -/
def coherElemA (rs : RuleSet α) (f : Nat) (p : α × α) : Res Bool :=
  match areDependentFuel rs f p.1 p.2 with
  | .ok true => .ok false
  | .ok false =>
    match areDependentFuel rs f p.2 p.1 with
    | .ok b => .ok (!b)
    | .asrt => .asrt
    | .fuel => .fuel
  | .asrt => .asrt
  | .fuel => .fuel

/-- One element of the inner map of `check_common_dependence`: the expression
`areDependent(x, sym1) and areDependent(x, sym2)`, with short-circuiting. -/
def coherElemB (rs : RuleSet α) (f : Nat) (sym1 sym2 x : α) : Res Bool :=
  match areDependentFuel rs f x sym1 with
  | .ok false => .ok false
  | .ok true => areDependentFuel rs f x sym2
  | .asrt => .asrt
  | .fuel => .fuel

/-- `check_common_dependence(sym1, sym2)` inside `isCoherent`: or-reduce, over
the symbols other than `sym1` and `sym2`, whether the symbol depends on both. -/
def checkCommonDep (rs : RuleSet α) (f : Nat) (sym1 sym2 : α) : Res Bool :=
  resOr ((removeS sym2 (removeS sym1 rs.symbols)).map (coherElemB rs f sym1 sym2))

/-- `RuleSet.isCoherent()`: `check_a` and-reduces condition (a) over the
conflict list, `check_b` or-reduces `check_common_dependence` over the conflict
list, and the result is `check_a and (not check_b)`. -/
def isCoherentFuel (f : Nat) (rs : RuleSet α) : Res Bool :=
  match resAnd (rs.confs.map (coherElemA rs f)) with
  | .ok check_a =>
    match resOr (rs.confs.map (fun p => checkCommonDep rs f p.1 p.2)) with
    | .ok check_b => .ok (check_a && !check_b)
    | .asrt => .asrt
    | .fuel => .fuel
  | .asrt => .asrt
  | .fuel => .fuel

/-- State of an `Options` object: the composed rules and the private
`__selection` set. -/
structure Opts (α : Type) where
  rules : RuleSet α
  selection : List α
deriving DecidableEq, Repr

/-- Outcome of an `Options` method: normal return or `AssertionError`, each
carrying the object state observable afterwards, or non-termination. -/
inductive ORes (α : Type) where
  | ok (st : Opts α)
  | asrt (st : Opts α)
  | fuel
deriving DecidableEq, Repr

/-- `Options.__switch_off(opt)`: first discard `opt` from the selection, then
subtract all dependants of `opt`.  An assertion inside `_getAllDependants`
leaves the selection with `opt` already discarded. -/
def switchOffFuel (f : Nat) (st : Opts α) (opt : α) : ORes α :=
  let st1 : Opts α := { st with selection := removeS opt st.selection }
  match getAllDependantsFuel f st.rules opt with
  | .ok dependants => .ok { st1 with selection := diffS st1.selection dependants }
  | .asrt => .asrt st1
  | .fuel => .fuel

/-- The eager `map(lambda x: self.__switch_off(x), l)` pattern: switch off each
listed symbol in turn, stopping at the first exceptional outcome. -/
def switchOffList (f : Nat) : Opts α → List α → ORes α
  | st, [] => .ok st
  | st, x :: xs =>
    match switchOffFuel f st x with
    | .ok st1 => switchOffList f st1 xs
    | .asrt st1 => .asrt st1
    | .fuel => .fuel

/-- The loop building `opt_deps_confs` in `__switch_on`: union the conflict
sets of all listed symbols, propagating the first exceptional outcome. -/
def collectConfsOf (rs : RuleSet α) : List α → Res (List α)
  | [] => .ok []
  | d :: ds =>
    match getAllConflicts rs d with
    | .ok cs =>
      match collectConfsOf rs ds with
      | .ok rest => .ok (unionS cs rest)
      | .asrt => .asrt
      | .fuel => .fuel
    | .asrt => .asrt
    | .fuel => .fuel

/-- `Options.__switch_on(opt)`: add `opt` to the selection, union in all of its
dependencies, switch off every conflict of `opt`, then switch off every
conflict of each of those dependencies. -/
def switchOnFuel (f : Nat) (st : Opts α) (opt : α) : ORes α :=
  let st1 : Opts α := { st with selection := insertS opt st.selection }
  match getAllDependenciesFuel f st.rules opt with
  | .asrt => .asrt st1
  | .fuel => .fuel
  | .ok opt_deps =>
    let st2 : Opts α := { st1 with selection := unionS st1.selection opt_deps }
    match getAllConflicts st.rules opt with
    | .asrt => .asrt st2
    | .fuel => .fuel
    | .ok opt_confs =>
      match switchOffList f st2 opt_confs with
      | .ok st3 =>
        match collectConfsOf st.rules opt_deps with
        | .ok opt_deps_confs => switchOffList f st3 opt_deps_confs
        | .asrt => .asrt st3
        | .fuel => .fuel
      | .asrt st3 => .asrt st3
      | .fuel => .fuel

/-- `Options.toggle(opt)`: switch on when the option is off, otherwise switch
it off. -/
def toggleFuel (f : Nat) (st : Opts α) (opt : α) : ORes α :=
  if opt ∈ st.selection then switchOffFuel f st opt else switchOnFuel f st opt

/-- A sequence of `toggle` calls, each with its own recursion allowance,
stopping at the first call that does not return normally. -/
def runToggles : Opts α → List (Nat × α) → ORes α
  | st, [] => .ok st
  | st, (f, o) :: rest =>
    match toggleFuel f st o with
    | .ok st1 => runToggles st1 rest
    | .asrt st1 => .asrt st1
    | .fuel => .fuel

/-- Reflexive-transitive reachability along the stored dependency edges: the
mathematical meaning of `areDependent`. -/
inductive Reach (deps : List (α × α)) : α → α → Prop
  | refl (a : α) : Reach deps a a
  | step {a b c : α} : (a, b) ∈ deps → Reach deps b c → Reach deps a c

/-- The call `areDependent(dest, source)` never returns, whatever recursion
depth is allowed. -/
def divergesAt (rs : RuleSet α) (dest source : α) : Prop :=
  ∀ f, areDependentFuel rs f dest source = .fuel

/-- No registered conflict pair has both members in the selection. -/
def ConflictFree (rs : RuleSet α) (sel : List α) : Prop :=
  ∀ p ∈ rs.confs, ¬(p.1 ∈ sel ∧ p.2 ∈ sel)

/-- The store of spec coherence example 1: `addDep(a,b); addDep(c,d)` and the
conflict `{e,f}` (symbols 0..5). -/
def rsEx1 : RuleSet Nat := ⟨[(0, 1), (2, 3)], [(4, 5)], [0, 1, 2, 3, 4, 5]⟩

/-- Two disjoint dependency 2-cycles, built through the registration API:
`a = 0, b = 1, c = 2, d = 3`. -/
def rsC2 : RuleSet Nat :=
  addDep (addDep (addDep (addDep RuleSet.empty 0 1) 1 0) 2 3) 3 2

/-- Store for the transitivity counterexample: two 2-cycles `0 <-> 1` and
`2 <-> 3`, plus a chain `0 -> 4 -> 5 -> 3`, built through the API. -/
def rsC8 : RuleSet Nat :=
  addDep (addDep (addDep (addDep (addDep (addDep (addDep
    RuleSet.empty 0 1) 1 0) 2 3) 3 2) 0 4) 4 5) 5 3

/-- A simple dependency chain `0 -> 1 -> 2`, built through the API. -/
def rsChain : RuleSet Nat := addDep (addDep RuleSet.empty 0 1) 1 2

/-- Dependencies `0 -> 1` and `2 -> 0`: symbol 0 has dependency 1 and
dependant 2, built through the API. -/
def rsOff : RuleSet Nat := addDep (addDep RuleSet.empty 0 1) 2 0

/-- The store of the spec toggle cascade example: dependency `(a, b)` and
conflict `{b, c}` with `a = 0, b = 1, c = 2`. -/
def rsTog : RuleSet Nat := ⟨[(0, 1)], [(1, 2)], [0, 1, 2]⟩

theorem mem_insertS {β : Type} [DecidableEq β] {a x : β} {l : List β} :
    x ∈ insertS a l ↔ x = a ∨ x ∈ l := by
  unfold insertS
  split
  · next h =>
    constructor
    · exact fun hx => Or.inr hx
    · rintro (rfl | hx)
      · exact h
      · exact hx
  · simp [List.mem_append, or_comm]

theorem mem_removeS {a x : α} {l : List α} : x ∈ removeS a l ↔ x ∈ l ∧ x ≠ a := by
  simp [removeS]

theorem mem_diffS {x : α} {l1 l2 : List α} : x ∈ diffS l1 l2 ↔ x ∈ l1 ∧ x ∉ l2 := by
  simp [diffS]

theorem unionS_cons {l1 : List α} {y : α} {t : List α} :
    unionS l1 (y :: t) = unionS (insertS y l1) t := rfl

theorem mem_unionS {x : α} : ∀ {l2 l1 : List α}, x ∈ unionS l1 l2 ↔ x ∈ l1 ∨ x ∈ l2
  | [], l1 => by simp [unionS]
  | y :: t, l1 => by
    rw [unionS_cons, mem_unionS, mem_insertS]
    constructor
    · rintro ((rfl | h) | h)
      · exact Or.inr (List.mem_cons_self _ _)
      · exact Or.inl h
      · exact Or.inr (List.mem_cons_of_mem _ h)
    · rintro (h | h)
      · exact Or.inl (Or.inr h)
      · rcases List.mem_cons.mp h with rfl | h
        · exact Or.inl (Or.inl rfl)
        · exact Or.inr h

theorem crossJoin_cons {x : α} {t l2 : List α} :
    crossJoin (x :: t) l2 = l2.map (fun y => (x, y)) ++ crossJoin t l2 := rfl

theorem mem_crossJoin {l2 : List α} {p : α × α} : ∀ {l1 : List α},
    p ∈ crossJoin l1 l2 ↔ p.1 ∈ l1 ∧ p.2 ∈ l2
  | [] => by simp [crossJoin]
  | x :: t => by
    have ih : p ∈ crossJoin t l2 ↔ p.1 ∈ t ∧ p.2 ∈ l2 := mem_crossJoin
    rw [crossJoin_cons]
    simp only [List.mem_append, List.mem_map, ih, List.mem_cons]
    constructor
    · rintro (⟨y, hy, rfl⟩ | ⟨h1, h2⟩)
      · exact ⟨Or.inl rfl, hy⟩
      · exact ⟨Or.inr h1, h2⟩
    · rintro ⟨rfl | h1, h2⟩
      · exact Or.inl ⟨p.2, h2, Prod.mk.eta⟩
      · exact Or.inr ⟨h1, h2⟩

theorem mem_checkDst {deps : List (α × α)} {dest y : α} :
    y ∈ checkDst deps dest ↔ (dest, y) ∈ deps := by
  simp only [checkDst, List.mem_map, List.mem_filter, decide_eq_true_eq]
  constructor
  · rintro ⟨⟨a, b⟩, ⟨hp, h1⟩, h2⟩
    dsimp only at h1 h2
    subst h1; subst h2
    exact hp
  · intro h
    exact ⟨(dest, y), ⟨h, rfl⟩, rfl⟩

theorem mem_checkSrc {deps : List (α × α)} {source y : α} :
    y ∈ checkSrc deps source ↔ (y, source) ∈ deps := by
  simp only [checkSrc, List.mem_map, List.mem_filter, decide_eq_true_eq]
  constructor
  · rintro ⟨⟨a, b⟩, ⟨hp, h1⟩, h2⟩
    dsimp only at h1 h2
    subst h1; subst h2
    exact hp
  · intro h
    exact ⟨(y, source), ⟨h, rfl⟩, rfl⟩

theorem resOr_ok_iff {l : List (Res Bool)} {b : Bool} (h : resOr l = .ok b) :
    (∀ e ∈ l, ∃ c, e = Res.ok c) ∧ (b = true ↔ Res.ok true ∈ l) := by
  induction l generalizing b with
  | nil =>
    simp only [resOr, Res.ok.injEq] at h
    subst h
    simp
  | cons hd t ih =>
    cases hd with
    | ok c =>
      cases hrest : resOr t with
      | ok b2 =>
        simp only [resOr, hrest] at h
        obtain ⟨helems, hiff⟩ := ih hrest
        cases h
        constructor
        · intro e he
          rcases List.mem_cons.mp he with rfl | he
          · exact ⟨c, rfl⟩
          · exact helems e he
        · simp only [Bool.or_eq_true, List.mem_cons, hiff]
          constructor
          · rintro (rfl | h2)
            · exact Or.inl rfl
            · exact Or.inr h2
          · rintro (hc | h2)
            · cases hc; exact Or.inl rfl
            · exact Or.inr h2
      | asrt => simp [resOr, hrest] at h
      | fuel => simp [resOr, hrest] at h
    | asrt => simp [resOr] at h
    | fuel => simp [resOr] at h

theorem resOr_ok_false {l : List (Res Bool)} (h : resOr l = .ok false) :
    ∀ e ∈ l, e = Res.ok false := by
  obtain ⟨helems, hiff⟩ := resOr_ok_iff h
  intro e he
  obtain ⟨c, rfl⟩ := helems e he
  cases c with
  | true => exact absurd (hiff.mpr he) (by simp)
  | false => rfl

theorem resAnd_ok_iff {l : List (Res Bool)} {b : Bool} (h : resAnd l = .ok b) :
    (∀ e ∈ l, ∃ c, e = Res.ok c) ∧ (b = true ↔ ∀ e ∈ l, e = Res.ok true) := by
  induction l generalizing b with
  | nil =>
    simp only [resAnd, Res.ok.injEq] at h
    subst h
    simp
  | cons hd t ih =>
    cases hd with
    | ok c =>
      cases hrest : resAnd t with
      | ok b2 =>
        simp only [resAnd, hrest] at h
        obtain ⟨helems, hiff⟩ := ih hrest
        cases h
        constructor
        · intro e he
          rcases List.mem_cons.mp he with rfl | he
          · exact ⟨c, rfl⟩
          · exact helems e he
        · simp only [Bool.and_eq_true, hiff]
          constructor
          · rintro ⟨rfl, h2⟩
            intro e he
            rcases List.mem_cons.mp he with rfl | he
            · rfl
            · exact h2 e he
          · intro hall
            refine ⟨?_, fun e he => hall e (List.mem_cons_of_mem _ he)⟩
            have := hall _ (List.mem_cons_self _ _)
            cases this; rfl
      | asrt => simp [resAnd, hrest] at h
      | fuel => simp [resAnd, hrest] at h
    | asrt => simp [resAnd] at h
    | fuel => simp [resAnd] at h

theorem reach_trans {deps : List (α × α)} {a b c : α}
    (h1 : Reach deps a b) : Reach deps b c → Reach deps a c := by
  induction h1 with
  | refl => exact id
  | step hm _ ih => exact fun h2 => Reach.step hm (ih h2)

theorem reach_snoc {deps : List (α × α)} {a b c : α}
    (h1 : Reach deps a b) (h2 : (b, c) ∈ deps) : Reach deps a c :=
  reach_trans h1 (Reach.step h2 (Reach.refl c))

theorem reach_last {deps : List (α × α)} {a b : α} (h : Reach deps a b) :
    a = b ∨ ∃ y, Reach deps a y ∧ (y, b) ∈ deps := by
  induction h with
  | refl => exact Or.inl rfl
  | step hm hr ih =>
    rcases ih with rfl | ⟨y, hy, hyb⟩
    · exact Or.inr ⟨_, Reach.refl _, hm⟩
    · exact Or.inr ⟨y, Reach.step hm hy, hyb⟩

theorem ad_sound {rs : RuleSet α} : ∀ {f : Nat} {d s : α},
    areDependentFuel rs f d s = .ok true → Reach rs.deps d s := by
  intro f
  induction f with
  | zero =>
    intro d s h
    simp [areDependentFuel] at h
  | succ n ih =>
    intro d s h
    rw [areDependentFuel] at h
    split at h
    · cases h
    · split at h
      · next hbase =>
        rcases hbase with hmem | heq
        · exact Reach.step hmem (Reach.refl s)
        · exact heq ▸ Reach.refl s
      · split at h
        · next hov =>
          obtain ⟨y, hy1, hy2⟩ := hov
          exact Reach.step (mem_checkDst.mp hy1)
            (Reach.step (mem_checkSrc.mp hy2) (Reach.refl s))
        · obtain ⟨-, hiff⟩ := resOr_ok_iff h
          obtain ⟨p, hp, hpe⟩ := List.mem_map.mp (hiff.mp rfl)
          obtain ⟨hp1, hp2⟩ := mem_crossJoin.mp hp
          exact Reach.step (mem_checkDst.mp hp1)
            (reach_snoc (ih hpe) (mem_checkSrc.mp hp2))

theorem ad_complete {rs : RuleSet α} : ∀ {f : Nat} {d s : α},
    areDependentFuel rs f d s = .ok false → ¬ Reach rs.deps d s := by
  intro f
  induction f with
  | zero =>
    intro d s h
    simp [areDependentFuel] at h
  | succ n ih =>
    intro d s h
    rw [areDependentFuel] at h
    split at h
    · cases h
    · split at h
      · cases h
      · split at h
        · cases h
        · next hnb hno =>
          push_neg at hnb
          obtain ⟨hmem, hne⟩ := hnb
          intro hreach
          cases hreach with
          | refl => exact hne rfl
          | step hdx hxs =>
            rcases reach_last hxs with rfl | ⟨y, hxy, hys⟩
            · exact hmem hdx
            · have hcj : (_, y) ∈ crossJoin (checkDst rs.deps d) (checkSrc rs.deps s) :=
                mem_crossJoin.mpr ⟨mem_checkDst.mpr hdx, mem_checkSrc.mpr hys⟩
              have helem := resOr_ok_false h _ (List.mem_map.mpr ⟨_, hcj, rfl⟩)
              exact ih helem hxy

theorem collectDependants_ok {rs : RuleSet α} {f : Nat} {s : α} : ∀ {l S : List α},
    collectDependants rs f s l = .ok S →
    (∀ x, x ∈ S ↔ x ∈ l ∧ areDependentFuel rs f x s = .ok true) ∧
    (∀ x ∈ l, areDependentFuel rs f x s = .ok true ∨ areDependentFuel rs f x s = .ok false) := by
  intro l
  induction l with
  | nil =>
    intro S h
    simp only [collectDependants, Res.ok.injEq] at h
    subst h
    exact ⟨by simp, by simp⟩
  | cons x xs ih =>
    intro S h
    cases had : areDependentFuel rs f x s with
    | ok b =>
      cases b with
      | true =>
        simp only [collectDependants, had] at h
        cases hrest : collectDependants rs f s xs with
        | ok l2 =>
          rw [hrest] at h
          cases h
          obtain ⟨hmem, hall⟩ := ih hrest
          constructor
          · intro y
            simp only [List.mem_cons, hmem]
            constructor
            · rintro (rfl | ⟨hy1, hy2⟩)
              · exact ⟨Or.inl rfl, had⟩
              · exact ⟨Or.inr hy1, hy2⟩
            · rintro ⟨rfl | hy1, hy2⟩
              · exact Or.inl rfl
              · exact Or.inr ⟨hy1, hy2⟩
          · intro y hy
            rcases List.mem_cons.mp hy with rfl | hy
            · exact Or.inl had
            · exact hall y hy
        | asrt => rw [hrest] at h; cases h
        | fuel => rw [hrest] at h; cases h
      | false =>
        simp only [collectDependants, had] at h
        obtain ⟨hmem, hall⟩ := ih h
        constructor
        · intro y
          rw [hmem]
          simp only [List.mem_cons]
          constructor
          · rintro ⟨hy1, hy2⟩
            exact ⟨Or.inr hy1, hy2⟩
          · rintro ⟨rfl | hy1, hy2⟩
            · simp [had] at hy2
            · exact ⟨hy1, hy2⟩
        · intro y hy
          rcases List.mem_cons.mp hy with rfl | hy
          · exact Or.inr had
          · exact hall y hy
    | asrt => simp [collectDependants, had] at h
    | fuel => simp [collectDependants, had] at h

theorem getAllDependants_ok {f : Nat} {rs : RuleSet α} {s : α} {S : List α}
    (h : getAllDependantsFuel f rs s = .ok S) :
    s ∈ rs.symbols ∧
    (∀ x, x ∈ S ↔ x ∈ rs.symbols ∧ x ≠ s ∧ areDependentFuel rs f x s = .ok true) ∧
    (∀ x, x ∈ rs.symbols → x ≠ s → Reach rs.deps x s → areDependentFuel rs f x s = .ok true) := by
  unfold getAllDependantsFuel at h
  split at h
  · next hs =>
    obtain ⟨hmem, hall⟩ := collectDependants_ok h
    refine ⟨hs, ?_, ?_⟩
    · intro x
      rw [hmem x, mem_removeS]
      tauto
    · intro x hx hxs hr
      rcases hall x (mem_removeS.mpr ⟨hx, hxs⟩) with ht | hf
      · exact ht
      · exact absurd hr (ad_complete hf)
  · cases h

theorem conflictPartners_aux {s x : α} : ∀ {L : List (α × α)} {acc : List α},
    x ∈ L.foldl (fun acc c =>
      let acc1 := if c.1 = s then insertS c.2 acc else acc
      if c.2 = s then insertS c.1 acc1 else acc1) acc ↔
    x ∈ acc ∨ ∃ c ∈ L, (c.1 = s ∧ x = c.2) ∨ (c.2 = s ∧ x = c.1) := by
  intro L
  induction L with
  | nil => simp
  | cons c t ih =>
    intro acc
    rw [List.foldl_cons, ih]
    have hstep : x ∈ (let acc1 := if c.1 = s then insertS c.2 acc else acc
        if c.2 = s then insertS c.1 acc1 else acc1) ↔
        x ∈ acc ∨ (c.1 = s ∧ x = c.2) ∨ (c.2 = s ∧ x = c.1) := by
      by_cases h1 : c.1 = s <;> by_cases h2 : c.2 = s <;>
        simp [h1, h2, mem_insertS] <;> tauto
    rw [hstep]
    simp only [List.mem_cons]
    constructor
    · rintro ((hacc | hc) | ⟨d, hd, hdd⟩)
      · exact Or.inl hacc
      · exact Or.inr ⟨c, Or.inl rfl, hc⟩
      · exact Or.inr ⟨d, Or.inr hd, hdd⟩
    · rintro (hacc | ⟨d, rfl | hd, hdd⟩)
      · exact Or.inl (Or.inl hacc)
      · exact Or.inl (Or.inr hdd)
      · exact Or.inr ⟨d, hd, hdd⟩

theorem mem_conflictPartners {rs : RuleSet α} {s x : α} :
    x ∈ conflictPartners rs s ↔ ((s, x) ∈ rs.confs ∨ (x, s) ∈ rs.confs) := by
  unfold conflictPartners
  rw [conflictPartners_aux]
  simp only [List.not_mem_nil, false_or]
  constructor
  · rintro ⟨⟨a, b⟩, hc, ⟨h1, h2⟩ | ⟨h1, h2⟩⟩
    · dsimp only at h1 h2
      subst h1; subst h2
      exact Or.inl hc
    · dsimp only at h1 h2
      subst h1; subst h2
      exact Or.inr hc
  · rintro (h | h)
    · exact ⟨(s, x), h, Or.inl ⟨rfl, rfl⟩⟩
    · exact ⟨(x, s), h, Or.inr ⟨rfl, rfl⟩⟩

theorem getAllConflicts_ok {rs : RuleSet α} {s : α} {C : List α}
    (h : getAllConflicts rs s = .ok C) :
    s ∈ rs.symbols ∧ ∀ x, (x ∈ C ↔ (s, x) ∈ rs.confs ∨ (x, s) ∈ rs.confs) := by
  unfold getAllConflicts at h
  split at h
  · next hs =>
    cases h
    exact ⟨hs, fun x => mem_conflictPartners⟩
  · cases h

theorem collectConfsOf_ok {rs : RuleSet α} : ∀ {ds L : List α},
    collectConfsOf rs ds = .ok L →
    ∀ d ∈ ds, ∀ x, ((d, x) ∈ rs.confs ∨ (x, d) ∈ rs.confs) → x ∈ L := by
  intro ds
  induction ds with
  | nil =>
    intro L h d hd
    cases hd
  | cons d t ih =>
    intro L h e he x hx
    cases hgc : getAllConflicts rs d with
    | ok cs =>
      simp only [collectConfsOf, hgc] at h
      cases hrest : collectConfsOf rs t with
      | ok rest =>
        rw [hrest] at h
        cases h
        rcases List.mem_cons.mp he with rfl | he
        · exact mem_unionS.mpr (Or.inl (((getAllConflicts_ok hgc).2 x).mpr hx))
        · exact mem_unionS.mpr (Or.inr (ih hrest e he x hx))
      | asrt => rw [hrest] at h; cases h
      | fuel => rw [hrest] at h; cases h
    | asrt => simp [collectConfsOf, hgc] at h
    | fuel => simp [collectConfsOf, hgc] at h

theorem switchOffFuel_ok {f : Nat} {st : Opts α} {o : α} {st1 : Opts α}
    (h : switchOffFuel f st o = .ok st1) :
    st1.rules = st.rules ∧ (∀ x ∈ st1.selection, x ∈ st.selection) ∧ o ∉ st1.selection := by
  simp only [switchOffFuel] at h
  cases hd : getAllDependantsFuel f st.rules o with
  | ok S =>
    rw [hd] at h
    cases h
    refine ⟨rfl, ?_, ?_⟩
    · intro x hx
      exact (mem_removeS.mp (mem_diffS.mp hx).1).1
    · intro hx
      exact (mem_removeS.mp (mem_diffS.mp hx).1).2 rfl
  | asrt => rw [hd] at h; cases h
  | fuel => rw [hd] at h; cases h

theorem switchOffList_ok {f : Nat} : ∀ {L : List α} {st st1 : Opts α},
    switchOffList f st L = .ok st1 →
    st1.rules = st.rules ∧ (∀ x ∈ st1.selection, x ∈ st.selection) ∧
      ∀ x ∈ L, x ∉ st1.selection := by
  intro L
  induction L with
  | nil =>
    intro st st1 h
    simp only [switchOffList] at h
    cases h
    exact ⟨rfl, fun x hx => hx, fun x hx => absurd hx (List.not_mem_nil x)⟩
  | cons y t ih =>
    intro st st1 h
    cases hso : switchOffFuel f st y with
    | ok st2 =>
      simp only [switchOffList, hso] at h
      obtain ⟨hr2, hsub2, hy2⟩ := switchOffFuel_ok hso
      obtain ⟨hr1, hsub1, hall⟩ := ih h
      refine ⟨hr1.trans hr2, fun x hx => hsub2 x (hsub1 x hx), ?_⟩
      intro x hx
      rcases List.mem_cons.mp hx with rfl | hx
      · intro hmem
        exact hy2 (hsub1 x hmem)
      · exact hall x hx
    | asrt st2 => simp [switchOffList, hso] at h
    | fuel => simp [switchOffList, hso] at h

theorem rsC2_step1 (n : Nat) :
    areDependentFuel rsC2 (n + 1) 0 2 = resOr [areDependentFuel rsC2 n 1 3] := rfl

theorem rsC2_step2 (n : Nat) :
    areDependentFuel rsC2 (n + 1) 1 3 = resOr [areDependentFuel rsC2 n 0 2] := rfl

theorem rsC2_mutual (n : Nat) :
    areDependentFuel rsC2 n 0 2 = .fuel ∧ areDependentFuel rsC2 n 1 3 = .fuel := by
  induction n with
  | zero => exact ⟨rfl, rfl⟩
  | succ m ih =>
    constructor
    · rw [rsC2_step1, ih.2]; rfl
    · rw [rsC2_step2, ih.1]; rfl

theorem rsC8_step1 (n : Nat) : areDependentFuel rsC8 (n + 1) 0 3 =
    resOr [areDependentFuel rsC8 n 1 2, areDependentFuel rsC8 n 1 5,
           areDependentFuel rsC8 n 4 2, areDependentFuel rsC8 n 4 5] := rfl

theorem rsC8_step2 (n : Nat) : areDependentFuel rsC8 (n + 1) 1 2 =
    resOr [areDependentFuel rsC8 n 0 3] := rfl

theorem rsC8_mutual (n : Nat) :
    areDependentFuel rsC8 n 0 3 = .fuel ∧ areDependentFuel rsC8 n 1 2 = .fuel := by
  induction n with
  | zero => exact ⟨rfl, rfl⟩
  | succ m ih =>
    constructor
    · rw [rsC8_step1, ih.2]; rfl
    · rw [rsC8_step2, ih.1]; rfl

theorem coherElemA_ok {rs : RuleSet α} {f : Nat} {p : α × α} {c : Bool}
    (h : coherElemA rs f p = .ok c) :
    c = true ↔ (areDependentFuel rs f p.1 p.2 = .ok false ∧
                areDependentFuel rs f p.2 p.1 = .ok false) := by
  unfold coherElemA at h
  cases h1 : areDependentFuel rs f p.1 p.2 with
  | ok b1 =>
    cases b1 with
    | true =>
      rw [h1] at h
      cases h
      simp [h1]
    | false =>
      rw [h1] at h
      cases h2 : areDependentFuel rs f p.2 p.1 with
      | ok b2 =>
        rw [h2] at h
        cases h
        simp [h1, h2]
      | asrt => rw [h2] at h; cases h
      | fuel => rw [h2] at h; cases h
  | asrt => rw [h1] at h; cases h
  | fuel => rw [h1] at h; cases h

theorem coherElemB_ok {rs : RuleSet α} {f : Nat} {s1 s2 x : α} {c : Bool}
    (h : coherElemB rs f s1 s2 x = .ok c) :
    c = true ↔ (areDependentFuel rs f x s1 = .ok true ∧
                areDependentFuel rs f x s2 = .ok true) := by
  unfold coherElemB at h
  cases h1 : areDependentFuel rs f x s1 with
  | ok b1 =>
    cases b1 with
    | true =>
      rw [h1] at h
      dsimp only at h
      simp [h1, h]
    | false =>
      rw [h1] at h
      cases h
      simp [h1]
  | asrt => rw [h1] at h; cases h
  | fuel => rw [h1] at h; cases h

theorem checkCommonDep_ok {rs : RuleSet α} {f : Nat} {s1 s2 : α} {c : Bool}
    (h : checkCommonDep rs f s1 s2 = .ok c) :
    c = true ↔ ∃ x, x ∈ rs.symbols ∧ x ≠ s1 ∧ x ≠ s2 ∧
      areDependentFuel rs f x s1 = .ok true ∧
      areDependentFuel rs f x s2 = .ok true := by
  unfold checkCommonDep at h
  obtain ⟨helems, hiff⟩ := resOr_ok_iff h
  rw [hiff]
  constructor
  · intro hmem
    obtain ⟨x, hx, hex⟩ := List.mem_map.mp hmem
    have hboth := (coherElemB_ok hex).mp rfl
    obtain ⟨hx1, hx2⟩ := mem_removeS.mp hx
    obtain ⟨hy1, hy2⟩ := mem_removeS.mp hx1
    exact ⟨x, hy1, hy2, hx2, hboth⟩
  · rintro ⟨x, hxs, hx1, hx2, had1, had2⟩
    have hxl : x ∈ removeS s2 (removeS s1 rs.symbols) :=
      mem_removeS.mpr ⟨mem_removeS.mpr ⟨hxs, hx1⟩, hx2⟩
    have hmem : coherElemB rs f s1 s2 x ∈
        List.map (coherElemB rs f s1 s2) (removeS s2 (removeS s1 rs.symbols)) :=
      List.mem_map_of_mem _ hxl
    obtain ⟨cb, hcb⟩ := helems _ hmem
    have hcbt : cb = true := (coherElemB_ok hcb).mpr ⟨had1, had2⟩
    subst hcbt
    exact hcb ▸ hmem

theorem switchOnFuel_cf {f : Nat} {st : Opts α} {o : α} {st1 : Opts α}
    (h : switchOnFuel f st o = .ok st1) (hcf : ConflictFree st.rules st.selection) :
    st1.rules = st.rules ∧ ConflictFree st.rules st1.selection := by
  unfold switchOnFuel at h
  dsimp only at h
  cases hD : getAllDependenciesFuel f st.rules o with
  | asrt => rw [hD] at h; cases h
  | fuel => rw [hD] at h; cases h
  | ok D =>
    rw [hD] at h
    dsimp only at h
    cases hC : getAllConflicts st.rules o with
    | asrt => rw [hC] at h; cases h
    | fuel => rw [hC] at h; cases h
    | ok C =>
      rw [hC] at h
      dsimp only at h
      cases hL1 : switchOffList f
          { rules := st.rules, selection := unionS (insertS o st.selection) D } C with
      | asrt st3 => rw [hL1] at h; cases h
      | fuel => rw [hL1] at h; cases h
      | ok st3 =>
        rw [hL1] at h
        dsimp only at h
        cases hC2 : collectConfsOf st.rules D with
        | asrt => rw [hC2] at h; cases h
        | fuel => rw [hC2] at h; cases h
        | ok L2 =>
          rw [hC2] at h
          dsimp only at h
          obtain ⟨hr3, hsub3, hnotC⟩ := switchOffList_ok hL1
          obtain ⟨hr1, hsub1, hnotL2⟩ := switchOffList_ok h
          constructor
          · exact hr1.trans hr3
          · intro p hp hpand
            obtain ⟨hp1, hp2⟩ := hpand
            have hpe : (p.1, p.2) ∈ st.rules.confs := by
              rw [Prod.mk.eta]; exact hp
            have hp1st3 := hsub1 _ hp1
            have hp2st3 := hsub1 _ hp2
            have hp1m := mem_unionS.mp (hsub3 _ hp1st3)
            have hp2m := mem_unionS.mp (hsub3 _ hp2st3)
            rcases hp1m with hp1m | hp1D
            · rcases mem_insertS.mp hp1m with heq1 | hp1sel
              · -- the first member is the toggled option itself
                have h2C : p.2 ∈ C := ((getAllConflicts_ok hC).2 _).mpr
                  (Or.inl (by rw [← heq1]; exact hpe))
                exact hnotC _ h2C hp2st3
              · -- the first member was already selected; examine the second
                rcases hp2m with hp2m | hp2D
                · rcases mem_insertS.mp hp2m with heq2 | hp2sel
                  · have h1C : p.1 ∈ C := ((getAllConflicts_ok hC).2 _).mpr
                      (Or.inr (by rw [← heq2]; exact hpe))
                    exact hnotC _ h1C hp1st3
                  · exact hcf p hp ⟨hp1sel, hp2sel⟩
                · have h1L2 : p.1 ∈ L2 :=
                    collectConfsOf_ok hC2 _ hp2D _ (Or.inr hpe)
                  exact hnotL2 _ h1L2 hp1
            · have h2L2 : p.2 ∈ L2 :=
                collectConfsOf_ok hC2 _ hp1D _ (Or.inl hpe)
              exact hnotL2 _ h2L2 hp2

theorem toggleFuel_cf {f : Nat} {st : Opts α} {o : α} {st1 : Opts α}
    (h : toggleFuel f st o = .ok st1) (hcf : ConflictFree st.rules st.selection) :
    st1.rules = st.rules ∧ ConflictFree st.rules st1.selection := by
  unfold toggleFuel at h
  split at h
  · obtain ⟨hr, hsub, -⟩ := switchOffFuel_ok h
    exact ⟨hr, fun p hp h12 => hcf p hp ⟨hsub _ h12.1, hsub _ h12.2⟩⟩
  · exact switchOnFuel_cf h hcf

theorem runToggles_cf : ∀ {L : List (Nat × α)} {st st1 : Opts α},
    runToggles st L = .ok st1 → ConflictFree st.rules st.selection →
    st1.rules = st.rules ∧ ConflictFree st.rules st1.selection := by
  intro L
  induction L with
  | nil =>
    intro st st1 h hcf
    simp only [runToggles] at h
    cases h
    exact ⟨rfl, hcf⟩
  | cons a t ih =>
    intro st st1 h hcf
    obtain ⟨fa, oa⟩ := a
    simp only [runToggles] at h
    cases htog : toggleFuel fa st oa with
    | ok st2 =>
      rw [htog] at h
      obtain ⟨hr2, hcf2⟩ := toggleFuel_cf htog hcf
      have hcf2a : ConflictFree st2.rules st2.selection := by
        rw [hr2]; exact hcf2
      obtain ⟨hr1, hcf1⟩ := ih h hcf2a
      refine ⟨hr1.trans hr2, ?_⟩
      rw [← hr2]; exact hcf1
    | asrt st2 => rw [htog] at h; cases h
    | fuel => rw [htog] at h; cases h

theorem insertS_idem {β : Type} [DecidableEq β] (a : β) (l : List β) :
    insertS a (insertS a l) = insertS a l := by
  have hmem : a ∈ insertS a l := mem_insertS.mpr (Or.inl rfl)
  show (if a ∈ insertS a l then insertS a l else insertS a l ++ [a]) = insertS a l
  rw [if_pos hmem]

/-- C1: whenever `isCoherent()` returns a value `r`, `r` is true exactly when
(a) for every registered conflict pair both directed `areDependent` queries
return false, and (b) no conflict pair admits a third symbol of the universe,
distinct from both members, whose `areDependent` queries against both members
return true. -/
theorem c1_isCoherent_iff (rs : RuleSet α) (f : Nat) (r : Bool)
    (h : isCoherentFuel f rs = .ok r) :
    r = true ↔
      ((∀ p ∈ rs.confs, areDependentFuel rs f p.1 p.2 = .ok false ∧
          areDependentFuel rs f p.2 p.1 = .ok false) ∧
       (∀ p ∈ rs.confs, ¬ ∃ x, x ∈ rs.symbols ∧ x ≠ p.1 ∧ x ≠ p.2 ∧
          areDependentFuel rs f x p.1 = .ok true ∧
          areDependentFuel rs f x p.2 = .ok true)) := by
  unfold isCoherentFuel at h
  cases hA : resAnd (rs.confs.map (coherElemA rs f)) with
  | asrt => rw [hA] at h; cases h
  | fuel => rw [hA] at h; cases h
  | ok ca =>
    rw [hA] at h
    cases hB : resOr (rs.confs.map fun p => checkCommonDep rs f p.1 p.2) with
    | asrt => rw [hB] at h; cases h
    | fuel => rw [hB] at h; cases h
    | ok cb =>
      rw [hB] at h
      cases h
      obtain ⟨haelems, haiff⟩ := resAnd_ok_iff hA
      obtain ⟨hbelems, hbiff⟩ := resOr_ok_iff hB
      constructor
      · intro hr
        have hca : ca = true := by
          cases ca
          · simp at hr
          · rfl
        have hcb : cb = false := by
          cases hcbv : cb
          · rfl
          · rw [hca, hcbv] at hr; simp at hr
        constructor
        · intro p hp
          have hmem : coherElemA rs f p ∈ rs.confs.map (coherElemA rs f) :=
            List.mem_map_of_mem _ hp
          exact (coherElemA_ok (haiff.mp hca _ hmem)).mp rfl
        · intro p hp hex
          have hmem : checkCommonDep rs f p.1 p.2 ∈
              rs.confs.map (fun p => checkCommonDep rs f p.1 p.2) :=
            List.mem_map_of_mem _ hp
          obtain ⟨cp, hcp⟩ := hbelems _ hmem
          have hcpt : cp = true := (checkCommonDep_ok hcp).mpr hex
          subst hcpt
          have hokt : Res.ok true ∈
              rs.confs.map (fun p => checkCommonDep rs f p.1 p.2) := hcp ▸ hmem
          have := hbiff.mpr hokt
          rw [hcb] at this
          cases this
      · rintro ⟨hcond1, hcond2⟩
        have hca : ca = true := by
          rw [haiff]
          intro e he
          obtain ⟨p, hp, rfl⟩ := List.mem_map.mp he
          obtain ⟨cp, hcp⟩ := haelems _ he
          have hcpt : cp = true := (coherElemA_ok hcp).mpr (hcond1 p hp)
          rw [hcp, hcpt]
        have hcb : cb = false := by
          cases hcbv : cb
          · rfl
          · exfalso
            obtain ⟨p, hp, hpe⟩ := List.mem_map.mp (hbiff.mp hcbv)
            exact hcond2 p hp ((checkCommonDep_ok hpe).mp rfl)
        rw [hca, hcb]
        rfl

/-- Witness for C1 at the coherent store of spec example 1, with fuel 5. -/
theorem c1_isCoherent_iff_witness :
    (true = true) ↔
      ((∀ p ∈ rsEx1.confs, areDependentFuel rsEx1 5 p.1 p.2 = .ok false ∧
          areDependentFuel rsEx1 5 p.2 p.1 = .ok false) ∧
       (∀ p ∈ rsEx1.confs, ¬ ∃ x, x ∈ rsEx1.symbols ∧ x ≠ p.1 ∧ x ≠ p.2 ∧
          areDependentFuel rsEx1 5 x p.1 = .ok true ∧
          areDependentFuel rsEx1 5 x p.2 = .ok true)) :=
  c1_isCoherent_iff rsEx1 5 true (by decide)

/-- C2: the code does not satisfy the claim: on the store built by
`addDep(a,b); addDep(b,a); addDep(c,d); addDep(d,c)`, the query
`areDependent(a, c)` on two symbols of the universe recurses forever, never
returning a boolean: at every recursion allowance it still runs out. -/
theorem c2_areDependent_diverges :
    0 ∈ rsC2.symbols ∧ 2 ∈ rsC2.symbols ∧ divergesAt rsC2 0 2 :=
  ⟨by decide, by decide, fun f => (rsC2_mutual f).1⟩

/-- C3 counterexample: `addDep(a, a)` returns normally instead of failing: on
the empty store it silently skips the pair, stores no dependency, and still
adds `a` to the universe. -/
theorem c3_counterexample :
    addDep (RuleSet.empty : RuleSet Nat) 0 0 =
      { deps := [], confs := [], symbols := [0] } := by decide

/-- C3 (amended): registering a dependency with `dest == source` raises no
error: the pair is silently dropped (dependencies and conflicts unchanged)
while the symbol is still added to the universe. -/
theorem c3_addDep_self_silent (rs : RuleSet α) (a : α) :
    (addDep rs a a).deps = rs.deps ∧ (addDep rs a a).confs = rs.confs ∧
    (addDep rs a a).symbols = insertS a rs.symbols := by
  unfold addDep
  rw [if_neg (show ¬(a ≠ a) from fun hne => hne rfl)]
  exact ⟨rfl, rfl, insertS_idem a rs.symbols⟩

/-- Witness for the amended C3 at a concrete store. -/
theorem c3_addDep_self_silent_witness :
    (addDep rsEx1 0 0).deps = rsEx1.deps ∧ (addDep rsEx1 0 0).confs = rsEx1.confs ∧
    (addDep rsEx1 0 0).symbols = insertS 0 rsEx1.symbols :=
  c3_addDep_self_silent rsEx1 0

/-- C4: the code does not satisfy the claim: toggling a symbol absent from the
universe raises the unknown-symbol assertion, but the observable selection has
already been mutated: the failed toggle flips the membership of the symbol in
the selection instead of leaving the selection unchanged. -/
theorem c4_failed_toggle_mutates (f : Nat) (st : Opts α) (opt : α)
    (h : opt ∉ st.rules.symbols) :
    ∃ st1, toggleFuel f st opt = .asrt st1 ∧
      ((opt ∈ st1.selection) ↔ (opt ∉ st.selection)) := by
  unfold toggleFuel
  split
  · next hsel =>
    have hga : getAllDependantsFuel f st.rules opt = .asrt := by
      unfold getAllDependantsFuel
      rw [if_neg h]
    refine ⟨{ st with selection := removeS opt st.selection }, ?_, ?_⟩
    · simp only [switchOffFuel, hga]
    · simp [mem_removeS, hsel]
  · next hsel =>
    have hgd : getAllDependenciesFuel f st.rules opt = .asrt := by
      unfold getAllDependenciesFuel
      rw [if_neg h]
    refine ⟨{ st with selection := insertS opt st.selection }, ?_, ?_⟩
    · simp only [switchOnFuel, hgd]
    · simp [mem_insertS, hsel]

/-- Witness for C4: toggling the unknown symbol 9 on a fresh selection over the
coherent store of spec example 1. -/
theorem c4_failed_toggle_mutates_witness :
    ∃ st1, toggleFuel 3 (⟨rsEx1, []⟩ : Opts Nat) 9 = .asrt st1 ∧
      ((9 ∈ st1.selection) ↔ (9 ∉ ([] : List Nat))) :=
  c4_failed_toggle_mutates 3 ⟨rsEx1, []⟩ 9 (by decide)

/-- C5: on a coherent store, a returning `switchOff(opt)` for a symbol of the
universe removes exactly `opt` and the transitive dependants of `opt` from the
selection: a symbol stays selected precisely when it was selected, is not
`opt`, and is not a symbol of the universe reaching `opt` along dependency
edges; in particular selected dependencies of `opt` survive. -/
theorem c5_switchOff_removes (fc f : Nat) (st : Opts α) (opt : α) (st1 : Opts α)
    (hcoh : isCoherentFuel fc st.rules = .ok true)
    (hopt : opt ∈ st.rules.symbols)
    (h : switchOffFuel f st opt = .ok st1) :
    ∀ x, x ∈ st1.selection ↔
      (x ∈ st.selection ∧ x ≠ opt ∧
        ¬(x ∈ st.rules.symbols ∧ Reach st.rules.deps x opt)) := by
  simp only [switchOffFuel] at h
  cases hd : getAllDependantsFuel f st.rules opt with
  | asrt => rw [hd] at h; cases h
  | fuel => rw [hd] at h; cases h
  | ok S =>
    rw [hd] at h
    cases h
    obtain ⟨hs, hmem, hcompl⟩ := getAllDependants_ok hd
    intro x
    dsimp only
    rw [mem_diffS, mem_removeS]
    constructor
    · rintro ⟨⟨hxsel, hxne⟩, hxS⟩
      refine ⟨hxsel, hxne, ?_⟩
      rintro ⟨hxsym, hreach⟩
      exact hxS ((hmem x).mpr ⟨hxsym, hxne, hcompl x hxsym hxne hreach⟩)
    · rintro ⟨hxsel, hxne, hnr⟩
      refine ⟨⟨hxsel, hxne⟩, ?_⟩
      intro hxS
      obtain ⟨hxsym, -, hadt⟩ := (hmem x).mp hxS
      exact hnr ⟨hxsym, ad_sound hadt⟩

/-- Witness for C5: switching off symbol 0 of `rsOff` from the full selection
removes 0 and its dependant 2 while keeping its dependency 1. -/
theorem c5_switchOff_removes_witness :
    ((1 : Nat) ∈ (⟨rsOff, [1]⟩ : Opts Nat).selection ↔
      (1 ∈ ([0, 1, 2] : List Nat) ∧ 1 ≠ 0 ∧
        ¬(1 ∈ rsOff.symbols ∧ Reach rsOff.deps 1 0))) ∧
    ((2 : Nat) ∈ (⟨rsOff, [1]⟩ : Opts Nat).selection ↔
      (2 ∈ ([0, 1, 2] : List Nat) ∧ 2 ≠ 0 ∧
        ¬(2 ∈ rsOff.symbols ∧ Reach rsOff.deps 2 0))) :=
  ⟨c5_switchOff_removes 5 5 ⟨rsOff, [0, 1, 2]⟩ 0 ⟨rsOff, [1]⟩
      (by decide) (by decide) (by decide) 1,
   c5_switchOff_removes 5 5 ⟨rsOff, [0, 1, 2]⟩ 0 ⟨rsOff, [1]⟩
      (by decide) (by decide) (by decide) 2⟩

/-- C6: on the store with single dependency `(a, b)` and single conflict
`{b, c}`, the store is coherent and toggling `a` from the empty selection
returns the selection `{a, b}`, with `c` not selected. -/
theorem c6_toggle_cascade :
    isCoherentFuel 5 rsTog = .ok true ∧
    toggleFuel 5 (⟨rsTog, []⟩ : Opts Nat) 0 = .ok ⟨rsTog, [0, 1]⟩ ∧
    (2 ∉ ([0, 1] : List Nat)) :=
  ⟨by decide, by decide, by decide⟩

/-- C7: over a store whose `isCoherent()` returned true, any finite sequence of
toggles starting from the empty selection that all return normally leaves a
selection containing no registered conflict pair in full. -/
theorem c7_toggles_conflict_free (rs : RuleSet α) (fc : Nat)
    (L : List (Nat × α)) (st1 : Opts α)
    (hcoh : isCoherentFuel fc rs = .ok true)
    (h : runToggles ⟨rs, []⟩ L = .ok st1) :
    ConflictFree rs st1.selection :=
  (runToggles_cf h (fun _ _ hand => absurd hand.1 (List.not_mem_nil _))).2

/-- Witness for C7: one successful toggle of `a` on the cascade example store
leaves the conflict `{b, c}` unviolated. -/
theorem c7_toggles_conflict_free_witness : ConflictFree rsTog [0, 1] :=
  c7_toggles_conflict_free rsTog 5 [(5, 0)] ⟨rsTog, [0, 1]⟩ (by decide) (by decide)

/-- C8 counterexample: on the store `rsC8` the calls `areDependent(a, b)` and
`areDependent(b, c)` both return true (with `a = 0, b = 4, c = 3`), yet
`areDependent(a, c)` does not terminate at any recursion allowance, so the
claimed call that "terminates and yields true" does not exist. -/
theorem c8_counterexample :
    areDependentFuel rsC8 1 0 4 = .ok true ∧
    areDependentFuel rsC8 1 4 3 = .ok true ∧
    divergesAt rsC8 0 3 :=
  ⟨by decide, by decide, fun f => (rsC8_mutual f).1⟩

/-- C8 (amended): if `areDependent(a, b)` and `areDependent(b, c)` both return
true, then `areDependent(a, c)` never returns false: any terminating run of it
yields true, though the call need not terminate at all. -/
theorem c8_transitivity_partial (rs : RuleSet α) (f1 f2 : Nat) (a b c : α)
    (h1 : areDependentFuel rs f1 a b = .ok true)
    (h2 : areDependentFuel rs f2 b c = .ok true) :
    ∀ f3, areDependentFuel rs f3 a c ≠ .ok false := by
  intro f3 h3
  exact ad_complete h3 (reach_trans (ad_sound h1) (ad_sound h2))

/-- Witness for the amended C8 on the chain `0 -> 1 -> 2`. -/
theorem c8_transitivity_partial_witness :
    areDependentFuel rsChain 7 0 2 ≠ .ok false :=
  c8_transitivity_partial rsChain 1 1 0 1 2 (by decide) (by decide) 7

/-- C9: for distinct symbols whose `_getAllConflicts` queries return, the
returned sets are symmetric: `b` is a conflict of `a` exactly when `a` is a
conflict of `b`, whatever orientation the conflict was registered in. -/
theorem c9_conflict_symmetry (rs : RuleSet α) (a b : α) (Ca Cb : List α)
    (hab : a ≠ b)
    (ha : getAllConflicts rs a = .ok Ca) (hb : getAllConflicts rs b = .ok Cb) :
    b ∈ Ca ↔ a ∈ Cb := by
  rw [(getAllConflicts_ok ha).2, (getAllConflicts_ok hb).2]
  exact or_comm

/-- Witness for C9 on the cascade example store with its conflict `{1, 2}`. -/
theorem c9_conflict_symmetry_witness : (2 ∈ ([2] : List Nat)) ↔ (1 ∈ ([1] : List Nat)) :=
  c9_conflict_symmetry rsTog 1 2 [2] [1] (by decide) (by decide) (by decide)

/-- C10: a returning `_getAllDependants(sym)` never lists `sym` itself, even
though `areDependent(sym, sym)` returns true at any positive recursion
allowance. -/
theorem c10_dependants_exclude_self (f : Nat) (rs : RuleSet α) (s : α) (S : List α)
    (h : getAllDependantsFuel f rs s = .ok S) :
    s ∉ S ∧ ∀ g, areDependentFuel rs (g + 1) s s = .ok true := by
  obtain ⟨hs, hmem, -⟩ := getAllDependants_ok h
  constructor
  · intro hsS
    exact ((hmem s).mp hsS).2.1 rfl
  · intro g
    rw [areDependentFuel]
    rw [if_neg (by simp [hs]), if_pos (Or.inr rfl)]

/-- Witness for C10: the dependants of symbol 0 in `rsOff`. -/
theorem c10_dependants_exclude_self_witness :
    0 ∉ ([2] : List Nat) ∧ ∀ g, areDependentFuel rsOff (g + 1) 0 0 = .ok true :=
  c10_dependants_exclude_self 5 rsOff 0 [2] (by decide)

end RulesAndOptions
